import Mathlib

/-
Shallow embedding of the MinFuck interpreter (src/interpreter/mf.py).

The interpreter loads a byte buffer ("program"): bytes [0:4) are a magic,
bytes [4:8) a 32-bit big-endian memory size, bytes [8:) the instruction
stream.  A `Tape` is a byte array plus an integer cursor.  The main loop
fetches the byte at `pc`, splits it into nibbles and dispatches plain
control codes or 5-byte extended instructions.

Modelling conventions:
- bytes are `Nat` (buffer bytes are below 256 where it matters);
- the tape cursor is an `Int` (the source never bounds it; only cell
  accesses at an out-of-range cursor fault);
- fallible operations return `Except Fault _`; `Fault.indexError` stands
  for the source's out-of-range sequence accesses (including reading
  stdin at end of input, which indexes the empty string), and
  `Fault.assertionError` for the failure of the source's `assert data > 0`;
- byte stores into the tape wrap modulo 256 (the source stores into a
  bytearray, whose compiled byte store truncates to one byte);
- stdin and stdout are explicit byte lists threaded through the state;
- the unbounded while loop is given explicit fuel; running out of fuel is
  reported separately from halting.
-/

namespace MF

/-- Reasons a run can fault: an out-of-range sequence access
(`IndexError` in the source, including reading stdin at end of input),
or the failure of the source's `assert data > 0`. -/
inductive Fault where
  | indexError
  | assertionError
deriving DecidableEq

/-- The MF magic, bytes FF 6D 66 FD (`Magic` in the source). -/
def Magic : List Nat := [255, 109, 102, 253]

/-- The BF magic, bytes FF 6D 68 FD (`BFMagic` in the source). -/
def BFMagic : List Nat := [255, 109, 104, 253]

/-- Big-endian 32-bit decode of four bytes (`runpack(">I", _)` in the source). -/
def unpack32 (b0 b1 b2 b3 : Nat) : Nat :=
  ((b0 * 256 + b1) * 256 + b2) * 256 + b3

/-- The tape: a byte array plus an integer cursor (`Tape` in the source). -/
structure Tape where
  thetape : List Nat
  position : Int
deriving DecidableEq

/-- `Tape(size)`: `size` zero cells, cursor at 0. -/
def Tape.init (size : Nat) : Tape :=
  { thetape := List.replicate size 0, position := 0 }

/-- `Tape.get`: read the cell at the cursor; out-of-range access faults. -/
def Tape.get (t : Tape) : Except Fault Nat :=
  if 0 ≤ t.position ∧ t.position.toNat < t.thetape.length then
    .ok (t.thetape.getD t.position.toNat 0)
  else .error .indexError

/-- `Tape.set`: overwrite the cell at the cursor; out-of-range access faults. -/
def Tape.set (t : Tape) (val : Nat) : Except Fault Tape :=
  if 0 ≤ t.position ∧ t.position.toNat < t.thetape.length then
    .ok { t with thetape := t.thetape.set t.position.toNat val }
  else .error .indexError

/-- `Tape.inc`: add `val` to the current cell; the bytearray store wraps
modulo 256. -/
def Tape.inc (t : Tape) (val : Nat) : Except Fault Tape := do
  let v ← t.get
  t.set ((v + val) % 256)

/-- `Tape.dec`: subtract `val` from the current cell; the bytearray store
wraps modulo 256 (`256 - val % 256` is congruent to `-val` mod 256). -/
def Tape.dec (t : Tape) (val : Nat) : Except Fault Tape := do
  let v ← t.get
  t.set ((v + (256 - val % 256)) % 256)

/-- `Tape.advance`: move the cursor forward; never faults by itself. -/
def Tape.advance (t : Tape) (val : Nat) : Tape :=
  { t with position := t.position + val }

/-- `Tape.devance`: move the cursor backward; never faults by itself. -/
def Tape.devance (t : Tape) (val : Nat) : Tape :=
  { t with position := t.position - val }

/-- `Tape.control`: apply one plain control code.  Codes 6 and 7 perform
I/O, modelled on explicit input and output byte lists (`inp`, `outp`);
code 7 consumes the head of the input, faulting at end of input.  A code
with no matching branch (4, 5, and the nibbles 8-15 that can only reach
here as a low nibble 14) is a no-op, as in the source. -/
def Tape.control (t : Tape) (code : Nat) (inp outp : List Nat) :
    Except Fault (Tape × List Nat × List Nat) :=
  if code = 0 then do
    let t' ← t.inc 1
    .ok (t', inp, outp)
  else if code = 1 then do
    let t' ← t.dec 1
    .ok (t', inp, outp)
  else if code = 2 then .ok (t.advance 1, inp, outp)
  else if code = 3 then .ok (t.devance 1, inp, outp)
  else if code = 6 then do
    let v ← t.get
    .ok (t, inp, outp ++ [v])
  else if code = 7 then
    match inp with
    | [] => .error .indexError
    | b :: rest => do
      let t' ← t.set b
      .ok (t', rest, outp)
  else .ok (t, inp, outp)

/-- All cells of the tape are bytes (values in [0,255]). -/
def Tape.bytesOk (t : Tape) : Prop := ∀ c ∈ t.thetape, c < 256

/-- One interpreter state: program counter, tape, remaining input bytes,
output bytes written so far. -/
structure MachineState where
  pc : Nat
  tape : Tape
  input : List Nat
  output : List Nat
deriving DecidableEq

/-- The extended-operation half of the loop body, entered with `pc`
already advanced past the opcode byte.  `spb = 0`: add the low operand
byte (`program[pc+3]`, the only operand byte read) to the cell;
`spb = 1`: subtract it.  Otherwise the 4 operand bytes are decoded
big-endian (the source names this value `data`; it is inlined here),
`pc` moves past them, the source asserts `data > 0`, and `spb` 2/3 move
the cursor, 4 jumps when the cell is
zero, 5 jumps when it is nonzero (jump target masked to 32 bits as in
the source's `data & 0xFFFFFFFFL`, written here as `% 4294967296`);
any other `spb` does nothing further. -/
def extendedStep (program : List Nat) (spb : Nat) (s : MachineState) :
    Except Fault MachineState :=
  if spb = 0 then
    match program[s.pc + 3]? with
    | none => .error .indexError
    | some b => do
      let t ← s.tape.inc b
      .ok { s with tape := t, pc := s.pc + 4 }
  else if spb = 1 then
    match program[s.pc + 3]? with
    | none => .error .indexError
    | some b => do
      let t ← s.tape.dec b
      .ok { s with tape := t, pc := s.pc + 4 }
  else
    match program[s.pc]?, program[s.pc + 1]?, program[s.pc + 2]?, program[s.pc + 3]? with
    | some b0, some b1, some b2, some b3 =>
      if 0 < unpack32 b0 b1 b2 b3 then
        if spb = 2 then
          .ok { s with tape := s.tape.advance (unpack32 b0 b1 b2 b3), pc := s.pc + 4 }
        else if spb = 3 then
          .ok { s with tape := s.tape.devance (unpack32 b0 b1 b2 b3), pc := s.pc + 4 }
        else if spb = 4 then do
          let v ← s.tape.get
          if v = 0 then .ok { s with pc := unpack32 b0 b1 b2 b3 % 4294967296 }
          else .ok { s with pc := s.pc + 4 }
        else if spb = 5 then do
          let v ← s.tape.get
          if v ≠ 0 then .ok { s with pc := unpack32 b0 b1 b2 b3 % 4294967296 }
          else .ok { s with pc := s.pc + 4 }
        else .ok { s with pc := s.pc + 4 }
      else .error .assertionError
    | _, _, _, _ => .error .indexError

/-- One iteration of the while loop: fetch the byte at `pc`, split it
into nibbles `c1 = c >> 4` and `c2 = c & 0xF`; if `c1 & 8 == 8` run a
standalone extended operation with `spb = c1 & 7`; else if `c2 & 8 == 8`
and `c2 & 7 != 6`, apply `c1` as a plain control code and run an
extended operation with `spb = c2 & 7`; else apply `c1` then `c2` as
plain control codes and consume one byte. -/
def step (program : List Nat) (s : MachineState) : Except Fault MachineState :=
  match program[s.pc]? with
  | none => .error .indexError
  | some c =>
    let c1 := c >>> 4
    let c2 := c &&& 15
    if c1 &&& 8 = 8 then
      extendedStep program (c1 &&& 7) { s with pc := s.pc + 1 }
    else if c2 &&& 8 = 8 ∧ c2 &&& 7 ≠ 6 then
      match s.tape.control c1 s.input s.output with
      | .error f => .error f
      | .ok (t, i, o) =>
        extendedStep program (c2 &&& 7) { pc := s.pc + 1, tape := t, input := i, output := o }
    else
      match s.tape.control c1 s.input s.output with
      | .error f => .error f
      | .ok (t, i, o) =>
        match t.control c2 i o with
        | .error f => .error f
        | .ok (t2, i2, o2) => .ok { pc := s.pc + 1, tape := t2, input := i2, output := o2 }

/-- Outcome of the fuelled while loop. -/
inductive RunResult where
  | done (exitCode : Nat) (s : MachineState)
  | fault (f : Fault) (s : MachineState)
  | outOfFuel (s : MachineState)
deriving DecidableEq

/-- The while loop: step while `pc < len(program)`; on exit return 0. -/
def runLoop (program : List Nat) : Nat → MachineState → RunResult
  | 0, s => if s.pc < program.length then .outOfFuel s else .done 0 s
  | fuel + 1, s =>
    if s.pc < program.length then
      match step program s with
      | .error f => .fault f s
      | .ok s' => runLoop program fuel s'
    else .done 0 s

/-- `range(start, stop, 2)` from the source's tape-initialisation loop:
`start`, `start+2`, ... strictly below `stop`. -/
def pyRangeStep2 (start stop : Nat) : List Nat :=
  List.range' start ((stop - start + 1) / 2) 2

/-- The tape built for the MF magic: `Tape(2*memsize+8)`, then
`thetape[i] = 1` for `i in range(2, 2*memsize+8, 2)`. -/
def mfTape (memsize : Nat) : Tape :=
  { Tape.init (2 * memsize + 8) with
    thetape := (pyRangeStep2 2 (2 * memsize + 8)).foldl (fun l i => l.set i 1)
      (List.replicate (2 * memsize + 8) 0) }

/-- The big-endian memory-size field, bytes [4:8) of the buffer
(`runpack(">I", program[4:8])`; the defaults are never used at
length ≥ 8). -/
def memsizeOf (program : List Nat) : Nat :=
  unpack32 (program.getD 4 0) (program.getD 5 0) (program.getD 6 0) (program.getD 7 0)

/-- Header parsing, the part of `mainloop` before the while loop: fail
when the buffer is shorter than 8 bytes, else build the tape selected by
the magic, failing on an unknown magic.  The error value is the message
the source writes to standard output. -/
def loadTape (program : List Nat) : Except String Tape :=
  if program.length < 8 then .error "Invalid MF binary(file too small)\n"
  else if program.take 4 = Magic then .ok (mfTape (memsizeOf program))
  else if program.take 4 ≠ BFMagic then .error "Invalid MF binary(magic mismatch)\n"
  else .ok (Tape.init (memsizeOf program))

/-- Overall outcome of `mainloop`: a load failure (diagnostic message
written to standard output plus the exit code 1 the source returns), or
the loop's outcome. -/
inductive MainResult where
  | loadFailure (msg : String) (exitCode : Nat)
  | finished (exitCode : Nat) (s : MachineState)
  | fault (f : Fault) (s : MachineState)
  | outOfFuel (s : MachineState)
deriving DecidableEq

/-- Repackage a loop outcome as a `mainloop` outcome. -/
def runToMain : RunResult → MainResult
  | .done code s => .finished code s
  | .fault f s => .fault f s
  | .outOfFuel s => .outOfFuel s

/-- `mainloop(program)`: parse the header, then run the while loop from
`pc = 8` on the freshly built tape with the given input stream and an
empty output stream. -/
def mainloop (program input : List Nat) (fuel : Nat) : MainResult :=
  match loadTape program with
  | .error msg => .loadFailure msg 1
  | .ok tape => runToMain (runLoop program fuel { pc := 8, tape := tape, input := input, output := [] })

/-- Big-step execution relation of the while loop: `Exec program s t`
holds when the loop started at state `s` halts in state `t`.  It mirrors
the loop: step while `pc < len(program)`, stop otherwise. -/
inductive Exec (program : List Nat) : MachineState → MachineState → Prop where
  | halt (s : MachineState) (h : ¬ s.pc < program.length) : Exec program s s
  | more (s s' t : MachineState) (hpc : s.pc < program.length)
      (hs : step program s = .ok s') (ht : Exec program s' t) : Exec program s t

/-! Helper lemmas about the tape initialisation loop. -/

theorem foldl_set_length (ix l : List Nat) :
    (ix.foldl (fun acc j => acc.set j 1) l).length = l.length := by
  induction ix generalizing l with
  | nil => rfl
  | cons j ix ih => simpa [List.foldl_cons] using (ih (l.set j 1)).trans (List.length_set l j 1)

theorem foldl_set_getElem? (ix l : List Nat) (i : Nat) :
    (ix.foldl (fun acc j => acc.set j 1) l)[i]? =
      if i ∈ ix ∧ i < l.length then some 1 else l[i]? := by
  induction ix generalizing l with
  | nil => simp
  | cons j ix ih =>
    rw [List.foldl_cons, ih (l.set j 1), List.length_set, List.getElem?_set]
    have hn : ¬ i < l.length → l[i]? = none := fun h => List.getElem?_eq_none (by omega)
    by_cases h1 : i ∈ ix <;> by_cases h2 : i < l.length <;> by_cases h3 : j = i <;>
      simp_all [List.mem_cons] <;>
      first
      | rw [if_neg (fun h : i = j => h3 h.symm)]
      | rw [if_neg (fun h : i = j ∧ i < l.length => absurd h.2 (by omega))]
      | rw [List.getElem?_eq_none hn]

theorem mem_pyRangeStep2 (m i : Nat) :
    i ∈ pyRangeStep2 2 (2 * m + 8) ↔ 2 ≤ i ∧ i < 2 * m + 8 ∧ i % 2 = 0 := by
  simp only [pyRangeStep2, List.mem_range']
  constructor
  · rintro ⟨k, hk, rfl⟩
    omega
  · rintro ⟨h1, h2, h3⟩
    exact ⟨(i - 2) / 2, by omega, by omega⟩

theorem mfTape_length (m : Nat) : (mfTape m).thetape.length = 2 * m + 8 := by
  simpa [mfTape] using foldl_set_length (pyRangeStep2 2 (2 * m + 8)) (List.replicate (2 * m + 8) 0)

theorem mfTape_cells (m i : Nat) (hi : i < 2 * m + 8) :
    (mfTape m).thetape[i]? = some (if 2 ≤ i ∧ i % 2 = 0 then 1 else 0) := by
  show ((pyRangeStep2 2 (2 * m + 8)).foldl (fun l i => l.set i 1)
      (List.replicate (2 * m + 8) 0))[i]? = _
  rw [foldl_set_getElem?]
  by_cases h : 2 ≤ i ∧ i % 2 = 0
  · rw [if_pos ⟨(mem_pyRangeStep2 m i).2 ⟨h.1, hi, h.2⟩, by simpa using hi⟩, if_pos h]
  · rw [if_neg, List.getElem?_replicate, if_pos hi, if_neg h]
    rintro ⟨hmem, -⟩
    rw [mem_pyRangeStep2] at hmem
    exact h ⟨hmem.1, hmem.2.2⟩

/-! Helper lemmas about tape cell access. -/

theorem except_ok_bind {ε α β : Type} (a : α) (f : α → Except ε β) :
    (Except.ok a >>= f : Except ε β) = f a := rfl

theorem except_error_bind {ε α β : Type} (e : ε) (f : α → Except ε β) :
    (Except.error e >>= f : Except ε β) = .error e := rfl

theorem tape_get_ok {t : Tape} {v : Nat} (hv : t.get = .ok v) :
    0 ≤ t.position ∧ t.position.toNat < t.thetape.length ∧
      t.thetape.getD t.position.toNat 0 = v := by
  unfold Tape.get at hv
  split at hv
  · rename_i h
    refine ⟨h.1, h.2, ?_⟩
    injection hv
  · exact absurd hv (by simp)

theorem tape_set_ok (t : Tape) (w : Nat) (h1 : 0 ≤ t.position)
    (h2 : t.position.toNat < t.thetape.length) :
    t.set w = .ok { t with thetape := t.thetape.set t.position.toNat w } := by
  unfold Tape.set
  rw [if_pos ⟨h1, h2⟩]

theorem tape_get_set (t : Tape) (w : Nat) (h1 : 0 ≤ t.position)
    (h2 : t.position.toNat < t.thetape.length) :
    Tape.get { t with thetape := t.thetape.set t.position.toNat w } = .ok w := by
  unfold Tape.get
  rw [if_pos ⟨h1, by simpa [List.length_set] using h2⟩]
  congr 1
  rw [List.getD_eq_getElem?_getD, List.getElem?_set]
  simp [h2]

theorem tape_inc_ok {t : Tape} {v : Nat} (n : Nat) (hv : t.get = .ok v) :
    t.inc n = .ok { t with thetape := t.thetape.set t.position.toNat ((v + n) % 256) } := by
  obtain ⟨h1, h2, -⟩ := tape_get_ok hv
  unfold Tape.inc
  rw [hv]
  exact tape_set_ok t ((v + n) % 256) h1 h2

theorem tape_dec_ok {t : Tape} {v : Nat} (n : Nat) (hv : t.get = .ok v) :
    t.dec n = .ok { t with
      thetape := t.thetape.set t.position.toNat ((v + (256 - n % 256)) % 256) } := by
  obtain ⟨h1, h2, -⟩ := tape_get_ok hv
  unfold Tape.dec
  rw [hv]
  exact tape_set_ok t ((v + (256 - n % 256)) % 256) h1 h2

/-- C2: for a buffer with a valid 8-byte header, the MF magic FF 6D 66 FD
yields a tape of length `2*memsize+8` whose cells at even indices 2
through `2*memsize+6` are 1 and all others (index 0 included) are 0,
while the BF magic FF 6D 68 FD yields a tape of length `memsize` with
all cells 0; in both cases the cursor starts at 0 and the while loop is
entered at `pc = 8`. -/
theorem load_tape_spec (program : List Nat) (h8 : 8 ≤ program.length) :
    (program.take 4 = Magic →
      loadTape program = .ok (mfTape (memsizeOf program)) ∧
      (mfTape (memsizeOf program)).thetape.length = 2 * memsizeOf program + 8 ∧
      (mfTape (memsizeOf program)).position = 0 ∧
      ∀ i, i < 2 * memsizeOf program + 8 →
        (mfTape (memsizeOf program)).thetape[i]? =
          some (if 2 ≤ i ∧ i % 2 = 0 then 1 else 0)) ∧
    (program.take 4 = BFMagic →
      loadTape program = .ok (Tape.init (memsizeOf program)) ∧
      (Tape.init (memsizeOf program)).thetape.length = memsizeOf program ∧
      (Tape.init (memsizeOf program)).position = 0 ∧
      ∀ i, i < memsizeOf program → (Tape.init (memsizeOf program)).thetape[i]? = some 0) ∧
    (∀ t, loadTape program = .ok t → ∀ input fuel,
      mainloop program input fuel =
        runToMain (runLoop program fuel { pc := 8, tape := t, input := input, output := [] })) := by
  refine ⟨fun hmag => ?_, fun hmag => ?_, fun t ht input fuel => ?_⟩
  · refine ⟨?_, mfTape_length _, rfl, fun i hi => mfTape_cells _ i hi⟩
    unfold loadTape
    rw [if_neg (by omega), if_pos hmag]
  · have hne : program.take 4 ≠ Magic := by
      rw [hmag]
      decide
    refine ⟨?_, by simp [Tape.init], rfl, fun i hi => by simp [Tape.init, hi]⟩
    unfold loadTape
    rw [if_neg (by omega), if_neg hne, if_neg (by simp [hmag])]
  · unfold mainloop
    rw [ht]

/-- C2 witness: a concrete MF buffer with memsize 1 and a concrete BF
buffer with memsize 2, instantiating `load_tape_spec`. -/
theorem load_tape_spec_witness :
    loadTape [255, 109, 102, 253, 0, 0, 0, 1] = .ok (mfTape 1) ∧
    (mfTape 1).thetape[2]? = some 1 ∧
    (mfTape 1).thetape[0]? = some 0 ∧
    loadTape [255, 109, 104, 253, 0, 0, 0, 2] = .ok (Tape.init 2) := by
  have h1 := (load_tape_spec [255, 109, 102, 253, 0, 0, 0, 1] (by decide)).1 (by decide)
  have h2 := (load_tape_spec [255, 109, 104, 253, 0, 0, 0, 2] (by decide)).2.1 (by decide)
  refine ⟨h1.1, ?_, ?_, h2.1⟩
  · simpa using h1.2.2.2 2 (by decide)
  · simpa using h1.2.2.2 0 (by decide)

/-- C7: a buffer shorter than 8 bytes makes loading fail with the
message "Invalid MF binary(file too small)\n" on standard output and
exit code 1, whatever the content (so the length check precedes the
magic check); a buffer of length at least 8 whose first four bytes are
neither magic fails with "Invalid MF binary(magic mismatch)\n" and exit
code 1.  Both outcomes are independent of the input stream and the fuel,
so no instruction is executed. -/
theorem load_error_spec (program : List Nat) :
    (program.length < 8 → ∀ input fuel,
      mainloop program input fuel = .loadFailure "Invalid MF binary(file too small)\n" 1) ∧
    (8 ≤ program.length → program.take 4 ≠ Magic → program.take 4 ≠ BFMagic →
      ∀ input fuel,
        mainloop program input fuel = .loadFailure "Invalid MF binary(magic mismatch)\n" 1) := by
  constructor
  · intro hlen input fuel
    unfold mainloop loadTape
    rw [if_pos hlen]
  · intro hlen hm hb input fuel
    unfold mainloop loadTape
    rw [if_neg (by omega), if_neg hm, if_pos hb]

/-- C7 witness: a 4-byte buffer that even starts like the MF magic is
rejected as too small, and an 8-byte buffer with an unknown magic is
rejected as a magic mismatch. -/
theorem load_error_spec_witness :
    mainloop [255, 109, 102, 253] [] 5 = .loadFailure "Invalid MF binary(file too small)\n" 1 ∧
    mainloop [0, 1, 2, 3, 0, 0, 0, 0] [] 5 =
      .loadFailure "Invalid MF binary(magic mismatch)\n" 1 :=
  ⟨(load_error_spec [255, 109, 102, 253]).1 (by decide) [] 5,
   (load_error_spec [0, 1, 2, 3, 0, 0, 0, 0]).2 (by decide) (by decide) (by decide) [] 5⟩

/-- C8: the while loop steps exactly while `pc < len(program)`; as soon
as `pc ≥ len(program)` it stops and the run returns exit code 0 whatever
the state (tape included); in particular a valid buffer of length
exactly 8 runs zero steps: the loop state is returned untouched with
exit code 0. -/
theorem halt_spec (program : List Nat) :
    (∀ fuel s, ¬ s.pc < program.length → runLoop program fuel s = .done 0 s) ∧
    (∀ fuel s, s.pc < program.length →
      runLoop program (fuel + 1) s =
        match step program s with
        | .error f => .fault f s
        | .ok s' => runLoop program fuel s') ∧
    (program.length = 8 → ∀ t, loadTape program = .ok t → ∀ input fuel,
      mainloop program input fuel = .finished 0 { pc := 8, tape := t, input := input, output := [] }) := by
  refine ⟨fun fuel s hpc => ?_, fun fuel s hpc => ?_, fun hlen t ht input fuel => ?_⟩
  · cases fuel <;> simp [runLoop, hpc]
  · simp [runLoop, hpc]
  · have hml : mainloop program input fuel =
        runToMain (runLoop program fuel { pc := 8, tape := t, input := input, output := [] }) := by
      unfold mainloop
      rw [ht]
    have hdone : runLoop program fuel { pc := 8, tape := t, input := input, output := [] } =
        .done 0 { pc := 8, tape := t, input := input, output := [] } := by
      cases fuel <;> simp [runLoop, hlen]
    rw [hml, hdone]
    rfl

/-- C1: the decoder classifies the byte `c` fetched at `pc` by its
nibbles `c1 = c >> 4` and `c2 = c & 0xF`: when `c1 & 8 == 8` the step is
a standalone extended operation with `spb = c1 & 7` performed with `pc`
past the opcode byte (the operand being the next 4 bytes); otherwise
when `c2 & 8 == 8` and `c2 & 7 != 6`, plain control code `c1` is applied
first and then the extended operation with `spb = c2 & 7`; otherwise
plain control codes `c1` and then `c2` are applied and `pc` advances by
exactly 1 with no extended operation. -/
theorem decode_spec (program : List Nat) (s : MachineState) (c : Nat)
    (hc : program[s.pc]? = some c) :
    (c >>> 4 &&& 8 = 8 →
      step program s = extendedStep program (c >>> 4 &&& 7) { s with pc := s.pc + 1 }) ∧
    (c >>> 4 &&& 8 ≠ 8 → c &&& 15 &&& 8 = 8 → c &&& 15 &&& 7 ≠ 6 →
      step program s =
        match s.tape.control (c >>> 4) s.input s.output with
        | .error f => .error f
        | .ok (t, i, o) =>
          extendedStep program (c &&& 15 &&& 7) { pc := s.pc + 1, tape := t, input := i, output := o }) ∧
    (c >>> 4 &&& 8 ≠ 8 → ¬ (c &&& 15 &&& 8 = 8 ∧ c &&& 15 &&& 7 ≠ 6) →
      step program s =
        match s.tape.control (c >>> 4) s.input s.output with
        | .error f => .error f
        | .ok (t, i, o) =>
          match t.control (c &&& 15) i o with
          | .error f => .error f
          | .ok (t2, i2, o2) => .ok { pc := s.pc + 1, tape := t2, input := i2, output := o2 }) := by
  refine ⟨fun h1 => ?_, fun h1 h2 h3 => ?_, fun h1 h2 => ?_⟩ <;> simp only [step, hc]
  · rw [if_pos h1]
  · rw [if_neg h1, if_pos ⟨h2, h3⟩]
  · rw [if_neg h1, if_neg h2]

/-- C1 witness: byte 0x80 at `pc` is a standalone extended operation
with spb 0. -/
theorem decode_spec_witness :
    step [128, 0, 0, 0, 5] (MachineState.mk 0 (Tape.init 1) [] []) =
      extendedStep [128, 0, 0, 0, 5] 0 (MachineState.mk 1 (Tape.init 1) [] []) :=
  (decode_spec [128, 0, 0, 0, 5] (MachineState.mk 0 (Tape.init 1) [] []) 128 rfl).1 (by decide)

/-- C3 counterexample: an extended operation whose operand decodes to
`d = 0` does not perform the move: with spb 2 and operand bytes
00 00 00 00 the interpreter fails its `assert data > 0` instead of
advancing the cursor by 0. -/
theorem ext_move_jump_counterexample :
    extendedStep [0, 0, 0, 0] 2 (MachineState.mk 0 (Tape.init 1) [] []) =
      .error .assertionError ∧
    ¬ extendedStep [0, 0, 0, 0] 2 (MachineState.mk 0 (Tape.init 1) [] []) =
        .ok (MachineState.mk 4 ((Tape.init 1).advance 0) [] []) := by
  refine ⟨rfl, fun h => ?_⟩
  have h' : (Except.error Fault.assertionError : Except Fault MachineState) =
      .ok (MachineState.mk 4 ((Tape.init 1).advance 0) [] []) := h
  exact Except.noConfusion h'

/-- C3 (amended with a strictly positive operand, as the assertion
counterexample forces): an extended operation whose 4 operand bytes
decode big-endian to `d > 0` behaves as follows — spb 2 advances the
cursor by `d`, spb 3 moves it back by `d`, spb 4 sets `pc` to the
absolute byte offset `d` exactly when the current cell is 0 (and
otherwise just advances `pc` past the operand, 5 bytes past the start of
the instruction), spb 5 sets `pc` to `d` exactly when the cell is
nonzero; the jump target is taken as-is, with no hypothesis that it lie
inside the buffer or on an instruction boundary. -/
theorem ext_move_jump_spec (program : List Nat) (s : MachineState) (b0 b1 b2 b3 : Nat)
    (h0 : program[s.pc]? = some b0) (h1 : program[s.pc + 1]? = some b1)
    (h2 : program[s.pc + 2]? = some b2) (h3 : program[s.pc + 3]? = some b3)
    (hb0 : b0 < 256) (hb1 : b1 < 256) (hb2 : b2 < 256) (hb3 : b3 < 256)
    (hpos : 0 < unpack32 b0 b1 b2 b3) :
    (extendedStep program 2 s =
        .ok { s with tape := s.tape.advance (unpack32 b0 b1 b2 b3), pc := s.pc + 4 } ∧
      (s.tape.advance (unpack32 b0 b1 b2 b3)).position =
        s.tape.position + (unpack32 b0 b1 b2 b3 : Int) ∧
      (s.tape.advance (unpack32 b0 b1 b2 b3)).thetape = s.tape.thetape) ∧
    (extendedStep program 3 s =
        .ok { s with tape := s.tape.devance (unpack32 b0 b1 b2 b3), pc := s.pc + 4 } ∧
      (s.tape.devance (unpack32 b0 b1 b2 b3)).position =
        s.tape.position - (unpack32 b0 b1 b2 b3 : Int) ∧
      (s.tape.devance (unpack32 b0 b1 b2 b3)).thetape = s.tape.thetape) ∧
    (∀ v, s.tape.get = .ok v →
      extendedStep program 4 s =
        .ok (if v = 0 then { s with pc := unpack32 b0 b1 b2 b3 }
          else { s with pc := s.pc + 4 })) ∧
    (∀ v, s.tape.get = .ok v →
      extendedStep program 5 s =
        .ok (if v = 0 then { s with pc := s.pc + 4 }
          else { s with pc := unpack32 b0 b1 b2 b3 })) := by
  have hm : unpack32 b0 b1 b2 b3 % 4294967296 = unpack32 b0 b1 b2 b3 := by
    apply Nat.mod_eq_of_lt
    unfold unpack32 at *
    omega
  refine ⟨⟨?_, rfl, rfl⟩, ⟨?_, rfl, rfl⟩, fun v hv => ?_, fun v hv => ?_⟩ <;>
    simp only [extendedStep, h0, h1, h2, h3] <;>
    rw [if_neg (by decide), if_neg (by decide), if_pos hpos] <;>
    simp only [Nat.reduceEqDiff, reduceIte]
  · rw [hv]
    by_cases hv0 : v = 0 <;> simp [hv0, hm, except_ok_bind]
  · rw [hv]
    by_cases hv0 : v = 0 <;> simp [hv0, hm, except_ok_bind]

/-- C3 witness: operand bytes 00 00 00 05 (`d = 5`): spb 2 advances the
cursor by 5, and spb 4 on a zero cell jumps to absolute offset 5 even
though the 4-byte buffer ends before it. -/
theorem ext_move_jump_spec_witness :
    extendedStep [0, 0, 0, 5] 2 (MachineState.mk 0 (Tape.init 1) [] []) =
      .ok (MachineState.mk 4 ((Tape.init 1).advance (unpack32 0 0 0 5)) [] []) ∧
    extendedStep [0, 0, 0, 5] 4 (MachineState.mk 0 (Tape.init 1) [] []) =
      .ok (MachineState.mk (unpack32 0 0 0 5) (Tape.init 1) [] []) := by
  have h := ext_move_jump_spec [0, 0, 0, 5] (MachineState.mk 0 (Tape.init 1) [] [])
    0 0 0 5 rfl rfl rfl rfl (by decide) (by decide) (by decide) (by decide) (by decide)
  refine ⟨h.1.1, ?_⟩
  have h4 := h.2.2.1 0 rfl
  simpa using h4

/-! Helper lemmas: which faults the tape primitives can raise, and
preservation of the all-cells-are-bytes invariant. -/

theorem tape_get_error {t : Tape} {f : Fault} (h : t.get = .error f) : f = .indexError := by
  unfold Tape.get at h
  split at h
  · exact absurd h (by simp)
  · injection h with h
    exact h.symm

theorem tape_set_error {t : Tape} {w : Nat} {f : Fault} (h : t.set w = .error f) :
    f = .indexError := by
  unfold Tape.set at h
  split at h
  · exact absurd h (by simp)
  · injection h with h
    exact h.symm

theorem tape_inc_error {t : Tape} {n : Nat} {f : Fault} (h : t.inc n = .error f) :
    f = .indexError := by
  unfold Tape.inc at h
  cases hg : t.get with
  | error g =>
    rw [hg, except_error_bind] at h
    injection h with h
    rw [← h]
    exact tape_get_error hg
  | ok v =>
    rw [hg, except_ok_bind] at h
    exact tape_set_error h

theorem tape_dec_error {t : Tape} {n : Nat} {f : Fault} (h : t.dec n = .error f) :
    f = .indexError := by
  unfold Tape.dec at h
  cases hg : t.get with
  | error g =>
    rw [hg, except_error_bind] at h
    injection h with h
    rw [← h]
    exact tape_get_error hg
  | ok v =>
    rw [hg, except_ok_bind] at h
    exact tape_set_error h

theorem set_bytesOk {t t' : Tape} {w : Nat} (h : t.set w = .ok t') (hw : w < 256)
    (ht : t.bytesOk) : t'.bytesOk := by
  unfold Tape.set at h
  split at h
  · injection h with h
    subst h
    intro c hc
    rcases List.mem_or_eq_of_mem_set hc with h1 | h1
    · exact ht c h1
    · omega
  · exact absurd h (by simp)

theorem inc_bytesOk {t t' : Tape} {n : Nat} (h : t.inc n = .ok t') (ht : t.bytesOk) :
    t'.bytesOk := by
  unfold Tape.inc at h
  cases hg : t.get with
  | error g =>
    rw [hg, except_error_bind] at h
    exact absurd h (by simp)
  | ok v =>
    rw [hg, except_ok_bind] at h
    exact set_bytesOk h (by omega) ht

theorem dec_bytesOk {t t' : Tape} {n : Nat} (h : t.dec n = .ok t') (ht : t.bytesOk) :
    t'.bytesOk := by
  unfold Tape.dec at h
  cases hg : t.get with
  | error g =>
    rw [hg, except_error_bind] at h
    exact absurd h (by simp)
  | ok v =>
    rw [hg, except_ok_bind] at h
    exact set_bytesOk h (by omega) ht

theorem control_bytesOk {t t' : Tape} {code : Nat} {inp outp i' o' : List Nat}
    (h : t.control code inp outp = .ok (t', i', o')) (ht : t.bytesOk)
    (hin : ∀ b ∈ inp, b < 256) : t'.bytesOk ∧ ∀ b ∈ i', b < 256 := by
  unfold Tape.control at h
  split_ifs at h
  · cases hg : t.inc 1 with
    | error g =>
      rw [hg, except_error_bind] at h
      exact absurd h (by simp)
    | ok u =>
      rw [hg, except_ok_bind] at h
      simp only [Except.ok.injEq, Prod.mk.injEq] at h
      obtain ⟨rfl, rfl, rfl⟩ := h
      exact ⟨inc_bytesOk hg ht, hin⟩
  · cases hg : t.dec 1 with
    | error g =>
      rw [hg, except_error_bind] at h
      exact absurd h (by simp)
    | ok u =>
      rw [hg, except_ok_bind] at h
      simp only [Except.ok.injEq, Prod.mk.injEq] at h
      obtain ⟨rfl, rfl, rfl⟩ := h
      exact ⟨inc_bytesOk hg ht, hin⟩
  · simp only [Except.ok.injEq, Prod.mk.injEq] at h
    obtain ⟨rfl, rfl, rfl⟩ := h
    exact ⟨ht, hin⟩
  · simp only [Except.ok.injEq, Prod.mk.injEq] at h
    obtain ⟨rfl, rfl, rfl⟩ := h
    exact ⟨ht, hin⟩
  · cases hg : t.get with
    | error g =>
      rw [hg, except_error_bind] at h
      exact absurd h (by simp)
    | ok v =>
      rw [hg, except_ok_bind] at h
      simp only [Except.ok.injEq, Prod.mk.injEq] at h
      obtain ⟨rfl, rfl, rfl⟩ := h
      exact ⟨ht, hin⟩
  · cases inp with
    | nil => exact absurd h (by simp)
    | cons b rest =>
      replace h : (t.set b >>= fun u =>
          (Except.ok (u, rest, outp) : Except Fault (Tape × List Nat × List Nat))) =
          Except.ok (t', i', o') := h
      cases hg : t.set b with
      | error g =>
        rw [hg, except_error_bind] at h
        exact absurd h (by simp)
      | ok u =>
        rw [hg, except_ok_bind] at h
        simp only [Except.ok.injEq, Prod.mk.injEq] at h
        obtain ⟨rfl, rfl, rfl⟩ := h
        refine ⟨set_bytesOk hg (hin b (List.mem_cons_self b rest)) ht, fun x hx => ?_⟩
        exact hin x (List.mem_cons_of_mem b hx)
  · simp only [Except.ok.injEq, Prod.mk.injEq] at h
    obtain ⟨rfl, rfl, rfl⟩ := h
    exact ⟨ht, hin⟩

theorem extendedStep_bytesOk {program : List Nat} {spb : Nat} {s s' : MachineState}
    (h : extendedStep program spb s = .ok s') (ht : s.tape.bytesOk) :
    s'.tape.bytesOk ∧ s'.input = s.input := by
  unfold extendedStep at h
  split_ifs at h
  · cases hb : program[s.pc + 3]? with
    | none =>
      simp only [hb] at h
      exact absurd h (by simp)
    | some b =>
      simp only [hb] at h
      cases hg : s.tape.inc b with
      | error g =>
        rw [hg, except_error_bind] at h
        exact absurd h (by simp)
      | ok u =>
        rw [hg, except_ok_bind] at h
        simp only [Except.ok.injEq] at h
        subst h
        exact ⟨inc_bytesOk hg ht, rfl⟩
  · cases hb : program[s.pc + 3]? with
    | none =>
      simp only [hb] at h
      exact absurd h (by simp)
    | some b =>
      simp only [hb] at h
      cases hg : s.tape.dec b with
      | error g =>
        rw [hg, except_error_bind] at h
        exact absurd h (by simp)
      | ok u =>
        rw [hg, except_ok_bind] at h
        simp only [Except.ok.injEq] at h
        subst h
        exact ⟨dec_bytesOk hg ht, rfl⟩
  · split at h
    · split_ifs at h
      · simp only [Except.ok.injEq] at h
        subst h
        exact ⟨ht, rfl⟩
    · exact absurd h (by simp)
  · split at h
    · split_ifs at h
      · simp only [Except.ok.injEq] at h
        subst h
        exact ⟨ht, rfl⟩
    · exact absurd h (by simp)
  · split at h
    · split_ifs at h
      · cases hg : s.tape.get with
        | error g =>
          rw [hg, except_error_bind] at h
          exact absurd h (by simp)
        | ok v =>
          rw [hg, except_ok_bind] at h
          split_ifs at h <;> simp only [Except.ok.injEq] at h <;> subst h <;> exact ⟨ht, rfl⟩
    · exact absurd h (by simp)
  · split at h
    · split_ifs at h
      · cases hg : s.tape.get with
        | error g =>
          rw [hg, except_error_bind] at h
          exact absurd h (by simp)
        | ok v =>
          rw [hg, except_ok_bind] at h
          split_ifs at h <;> simp only [Except.ok.injEq] at h <;> subst h <;> exact ⟨ht, rfl⟩
    · exact absurd h (by simp)
  · split at h
    · split_ifs at h
      · simp only [Except.ok.injEq] at h
        subst h
        exact ⟨ht, rfl⟩
    · exact absurd h (by simp)

theorem step_bytesOk {program : List Nat} {s s' : MachineState}
    (h : step program s = .ok s') (ht : s.tape.bytesOk)
    (hin : ∀ b ∈ s.input, b < 256) : s'.tape.bytesOk := by
  unfold step at h
  cases hc : program[s.pc]? with
  | none =>
    simp only [hc] at h
    exact absurd h (by simp)
  | some c =>
    simp only [hc] at h
    split_ifs at h
    · exact (extendedStep_bytesOk h ht).1
    · cases hctrl : s.tape.control (c >>> 4) s.input s.output with
      | error f =>
        simp only [hctrl] at h
        exact absurd h (by simp)
      | ok p =>
        obtain ⟨t1, i1, o1⟩ := p
        simp only [hctrl] at h
        have hb1 := control_bytesOk hctrl ht hin
        exact (extendedStep_bytesOk h hb1.1).1
    · cases hctrl : s.tape.control (c >>> 4) s.input s.output with
      | error f =>
        simp only [hctrl] at h
        exact absurd h (by simp)
      | ok p =>
        obtain ⟨t1, i1, o1⟩ := p
        simp only [hctrl] at h
        have hb1 := control_bytesOk hctrl ht hin
        cases hctrl2 : t1.control (c &&& 15) i1 o1 with
        | error f =>
          simp only [hctrl2] at h
          exact absurd h (by simp)
        | ok p2 =>
          obtain ⟨t2, i2, o2⟩ := p2
          simp only [hctrl2] at h
          have hb2 := control_bytesOk hctrl2 hb1.1 hb1.2
          simp only [Except.ok.injEq] at h
          subst h
          exact hb2.1

/-- C4: every tape cell holds a byte value in [0,255] — the initial
tapes do, and any successful step preserves it when the input stream
holds bytes — and cell arithmetic wraps modulo 256 on overflow and
underflow: incrementing a cell holding `v` by `n` stores
`(v + n) % 256`, decrementing stores the value congruent to `v - n`
modulo 256 (so 255 + 1 wraps to 0 and 0 - 1 wraps to 255, exercised by
the witness).  The plain control codes 0/1 are `inc 1` / `dec 1` and the
extended increment/decrement call the same `inc`/`dec`, so they share
this arithmetic. -/
theorem cell_wrap_spec :
    (∀ (t : Tape) (n v : Nat), t.get = .ok v →
      t.inc n = .ok { t with thetape := t.thetape.set t.position.toNat ((v + n) % 256) } ∧
      (v + n) % 256 < 256 ∧
      Tape.get { t with thetape := t.thetape.set t.position.toNat ((v + n) % 256) } =
        .ok ((v + n) % 256)) ∧
    (∀ (t : Tape) (n v : Nat), t.get = .ok v →
      t.dec n = .ok { t with
        thetape := t.thetape.set t.position.toNat ((v + (256 - n % 256)) % 256) } ∧
      (v + (256 - n % 256)) % 256 < 256 ∧
      (((v + (256 - n % 256)) % 256 : Nat) : Int) = ((v : Int) - (n : Int)) % 256) ∧
    (∀ m : Nat, (mfTape m).bytesOk ∧ (Tape.init m).bytesOk) ∧
    (∀ (t : Tape) (inp outp : List Nat), t.control 0 inp outp =
        (t.inc 1).bind (fun t' => .ok (t', inp, outp)) ∧
      t.control 1 inp outp = (t.dec 1).bind (fun t' => .ok (t', inp, outp))) ∧
    (∀ (program : List Nat) (s s' : MachineState), s.tape.bytesOk →
      (∀ b ∈ s.input, b < 256) → step program s = .ok s' → s'.tape.bytesOk) := by
  refine ⟨fun t n v hv => ⟨tape_inc_ok n hv, by omega, ?_⟩,
    fun t n v hv => ⟨tape_dec_ok n hv, by omega, by omega⟩,
    fun m => ⟨?_, ?_⟩, fun t inp outp => ⟨rfl, rfl⟩,
    fun program s s' ht hin h => step_bytesOk h ht hin⟩
  · obtain ⟨h1, h2, -⟩ := tape_get_ok hv
    exact tape_get_set t ((v + n) % 256) h1 h2
  · intro c hc
    rcases List.mem_iff_getElem?.1 hc with ⟨i, hi⟩
    have hlen : i < 2 * m + 8 := by
      by_contra hge
      rw [List.getElem?_eq_none (by rw [mfTape_length]; omega)] at hi
      exact Option.noConfusion hi
    have := (mfTape_cells m i hlen).symm.trans hi
    injection this with this
    split at this <;> omega
  · intro c hc
    have := List.eq_of_mem_replicate hc
    omega

/-- C4 witness: incrementing a cell holding 255 by 1 wraps to 0, and
decrementing a cell holding 0 by 1 wraps to 255. -/
theorem cell_wrap_spec_witness :
    (Tape.mk [255] 0).inc 1 = .ok (Tape.mk [0] 0) ∧
    (Tape.mk [0] 0).dec 1 = .ok (Tape.mk [255] 0) :=
  ⟨(cell_wrap_spec.1 (Tape.mk [255] 0) 1 255 rfl).1,
   (cell_wrap_spec.2.1 (Tape.mk [0] 0) 1 0 rfl).1⟩

/-- C9: for an extended operation with spb in {2,3,4,5}, once the 4
operand bytes are fetched the interpreter asserts that their big-endian
value is strictly positive before acting: when the operand bytes are not
all zero the assertion never fails, while an all-zero operand (a jump to
absolute offset 0 or a cursor move by 0, say) raises the assertion
failure instead of performing the operation, whatever the tape; spb 0
and 1 never raise it. -/
theorem assert_spec :
    (∀ (program : List Nat) (s : MachineState) (spb b0 b1 b2 b3 : Nat),
      spb = 2 ∨ spb = 3 ∨ spb = 4 ∨ spb = 5 →
      program[s.pc]? = some b0 → program[s.pc + 1]? = some b1 →
      program[s.pc + 2]? = some b2 → program[s.pc + 3]? = some b3 →
      ¬ (b0 = 0 ∧ b1 = 0 ∧ b2 = 0 ∧ b3 = 0) →
      extendedStep program spb s ≠ .error .assertionError) ∧
    (∀ (program : List Nat) (s : MachineState) (spb : Nat),
      spb = 2 ∨ spb = 3 ∨ spb = 4 ∨ spb = 5 →
      program[s.pc]? = some 0 → program[s.pc + 1]? = some 0 →
      program[s.pc + 2]? = some 0 → program[s.pc + 3]? = some 0 →
      extendedStep program spb s = .error .assertionError) ∧
    (∀ (program : List Nat) (s : MachineState),
      extendedStep program 0 s ≠ .error .assertionError ∧
      extendedStep program 1 s ≠ .error .assertionError) := by
  refine ⟨fun program s spb b0 b1 b2 b3 hspb h0 h1 h2 h3 hnz => ?_,
    fun program s spb hspb h0 h1 h2 h3 => ?_, fun program s => ⟨?_, ?_⟩⟩
  · have hd : 0 < unpack32 b0 b1 b2 b3 := by
      unfold unpack32
      omega
    rcases hspb with rfl | rfl | rfl | rfl <;>
      simp only [extendedStep, Nat.reduceEqDiff, reduceIte, h0, h1, h2, h3] <;>
      rw [if_pos hd]
    · simp
    · simp
    · cases hg : s.tape.get with
      | error g =>
        rw [except_error_bind]
        have := tape_get_error hg
        subst this
        simp
      | ok v =>
        rw [except_ok_bind]
        by_cases hv0 : v = 0 <;> simp [hv0]
    · cases hg : s.tape.get with
      | error g =>
        rw [except_error_bind]
        have := tape_get_error hg
        subst this
        simp
      | ok v =>
        rw [except_ok_bind]
        by_cases hv0 : v = 0 <;> simp [hv0]
  · rcases hspb with rfl | rfl | rfl | rfl <;>
      simp only [extendedStep, Nat.reduceEqDiff, reduceIte, h0, h1, h2, h3, unpack32] <;>
      norm_num
  · cases hb : program[s.pc + 3]? with
    | none =>
      simp only [extendedStep, Nat.reduceEqDiff, reduceIte, hb]
      simp
    | some b =>
      simp only [extendedStep, Nat.reduceEqDiff, reduceIte, hb]
      cases hg : s.tape.inc b with
      | error g =>
        rw [except_error_bind]
        have := tape_inc_error hg
        subst this
        simp
      | ok u =>
        rw [except_ok_bind]
        simp
  · cases hb : program[s.pc + 3]? with
    | none =>
      simp only [extendedStep, Nat.reduceEqDiff, reduceIte, hb]
      simp
    | some b =>
      simp only [extendedStep, Nat.reduceEqDiff, reduceIte, hb]
      cases hg : s.tape.dec b with
      | error g =>
        rw [except_error_bind]
        have := tape_dec_error hg
        subst this
        simp
      | ok u =>
        rw [except_ok_bind]
        simp

/-- C9 witness: an all-zero operand with spb 4 (conditional jump to
offset 0) fails the assertion; a nonzero operand with spb 2 and an
all-zero operand with spb 0 do not. -/
theorem assert_spec_witness :
    extendedStep [0, 0, 0, 0] 4 (MachineState.mk 0 (Tape.init 1) [] []) =
      .error .assertionError ∧
    extendedStep [0, 0, 0, 5] 2 (MachineState.mk 0 (Tape.init 1) [] []) ≠
      .error .assertionError ∧
    extendedStep [0, 0, 0, 0] 0 (MachineState.mk 0 (Tape.init 1) [] []) ≠
      .error .assertionError :=
  ⟨assert_spec.2.1 [0, 0, 0, 0] (MachineState.mk 0 (Tape.init 1) [] []) 4
      (by decide) rfl rfl rfl rfl,
   assert_spec.1 [0, 0, 0, 5] (MachineState.mk 0 (Tape.init 1) [] []) 2 0 0 0 5
      (by decide) rfl rfl rfl rfl (by decide),
   (assert_spec.2.2 [0, 0, 0, 0] (MachineState.mk 0 (Tape.init 1) [] [])).1⟩

theorem exec_deterministic {program : List Nat} {s t1 t2 : MachineState}
    (h1 : Exec program s t1) (h2 : Exec program s t2) : t1 = t2 := by
  induction h1 generalizing t2 with
  | halt s h =>
    cases h2 with
    | halt _ _ => rfl
    | more _ s' _ hpc hs ht => exact absurd hpc h
  | more s s' t hpc hs ht ih =>
    cases h2 with
    | halt _ h => exact absurd hpc h
    | more _ s'' t' hpc' hs' ht' =>
      rw [hs] at hs'
      injection hs' with e
      subst e
      exact ih ht'

/-- C10: execution is deterministic: from one initial state (same
program, same `pc`, tape and input-byte stream) the big-step relation of
the while loop reaches exactly one final state, so two runs of the same
program on the same input produce byte-identical output streams and
identical final tapes (cell array and cursor). -/
theorem run_deterministic (program : List Nat) (s t1 t2 : MachineState)
    (h1 : Exec program s t1) (h2 : Exec program s t2) :
    t1.output = t2.output ∧ t1.tape = t2.tape ∧ t1 = t2 := by
  have h := exec_deterministic h1 h2
  subst h
  exact ⟨rfl, rfl, rfl⟩

/-- C10 witness: a one-instruction run (byte 0x66 after a BF header)
executed twice from the same state. -/
theorem run_deterministic_witness :
    (MachineState.mk 9 (Tape.mk [65] 0) [] [65, 65]).output =
      (MachineState.mk 9 (Tape.mk [65] 0) [] [65, 65]).output ∧
    (MachineState.mk 9 (Tape.mk [65] 0) [] [65, 65]).tape =
      (MachineState.mk 9 (Tape.mk [65] 0) [] [65, 65]).tape ∧
    (MachineState.mk 9 (Tape.mk [65] 0) [] [65, 65]) =
      (MachineState.mk 9 (Tape.mk [65] 0) [] [65, 65]) :=
  run_deterministic [255, 109, 104, 253, 0, 0, 0, 0, 102]
    (MachineState.mk 8 (Tape.mk [65] 0) [] []) _ _
    (Exec.more _ (MachineState.mk 9 (Tape.mk [65] 0) [] [65, 65]) _ (by decide) rfl
      (Exec.halt _ (by decide)))
    (Exec.more _ (MachineState.mk 9 (Tape.mk [65] 0) [] [65, 65]) _ (by decide) rfl
      (Exec.halt _ (by decide)))

/-- C5: an extended operation with spb 0 (respectively spb 1) increments
(respectively decrements) the current cell by only the low (fourth)
operand byte: the outcome depends on no other operand byte, and the
program counter moves 4 bytes past the operand — 5 bytes from the start
of the instruction; in particular a standalone opcode byte with high
nibble 0x8 followed by operand bytes 00 00 00 b adds b to the current
cell modulo 256 and advances `pc` by exactly 5. -/
theorem ext_inc_dec_spec :
    (∀ (program q : List Nat) (s : MachineState),
      q[s.pc + 3]? = program[s.pc + 3]? →
      extendedStep q 0 s = extendedStep program 0 s ∧
      extendedStep q 1 s = extendedStep program 1 s) ∧
    (∀ (program : List Nat) (s : MachineState) (b v : Nat),
      program[s.pc + 3]? = some b → s.tape.get = .ok v →
      extendedStep program 0 s =
        .ok { s with
          tape := { s.tape with
            thetape := s.tape.thetape.set s.tape.position.toNat ((v + b) % 256) },
          pc := s.pc + 4 } ∧
      extendedStep program 1 s =
        .ok { s with
          tape := { s.tape with
            thetape := s.tape.thetape.set s.tape.position.toNat
              ((v + (256 - b % 256)) % 256) },
          pc := s.pc + 4 }) ∧
    (∀ (program : List Nat) (s : MachineState) (c b v : Nat),
      program[s.pc]? = some c → c >>> 4 = 8 →
      program[s.pc + 4]? = some b → s.tape.get = .ok v →
      step program s =
        .ok { s with
          tape := { s.tape with
            thetape := s.tape.thetape.set s.tape.position.toNat ((v + b) % 256) },
          pc := s.pc + 5 }) := by
  refine ⟨fun program q s hq => ⟨?_, ?_⟩, fun program s b v hb hv => ⟨?_, ?_⟩,
    fun program s c b v hc h8 hb hv => ?_⟩
  · simp only [extendedStep, Nat.reduceEqDiff, reduceIte, hq]
  · simp only [extendedStep, Nat.reduceEqDiff, reduceIte, hq]
  · simp only [extendedStep, Nat.reduceEqDiff, reduceIte, hb]
    rw [tape_inc_ok b hv, except_ok_bind]
  · simp only [extendedStep, Nat.reduceEqDiff, reduceIte, hb]
    rw [tape_dec_ok b hv, except_ok_bind]
  · have hc1 : c >>> 4 &&& 8 = 8 := by
      rw [h8]
      decide
    have hspb : c >>> 4 &&& 7 = 0 := by
      rw [h8]
      decide
    have e34 : s.pc + 1 + 3 = s.pc + 4 := by omega
    have e45 : s.pc + 1 + 4 = s.pc + 5 := by omega
    simp only [step, hc]
    rw [if_pos hc1, hspb]
    simp only [extendedStep, Nat.reduceEqDiff, reduceIte, e34, hb]
    rw [tape_inc_ok b hv, except_ok_bind, e45]

/-- C5 witness: opcode byte 0x80 with operand 00 00 00 05 on a zero
cell: the cell becomes 5 and `pc` moves from 0 to 5. -/
theorem ext_inc_dec_spec_witness :
    step [128, 0, 0, 0, 5] (MachineState.mk 0 (Tape.mk [0] 0) [] []) =
      .ok (MachineState.mk 5 (Tape.mk [5] 0) [] []) :=
  ext_inc_dec_spec.2.2 [128, 0, 0, 0, 5] (MachineState.mk 0 (Tape.mk [0] 0) [] [])
    128 5 0 rfl (by decide) rfl rfl

/-- C6: plain control codes act on the tape as follows — 0 increments
the current cell by 1 (modulo 256), 1 decrements it by 1 (modulo 256),
2 advances the cursor by 1, 3 moves it back by 1, 6 appends the current
cell value to the output port, 7 consumes exactly one byte from the
input port into the current cell; in particular the packed byte 0x66 on
a current cell holding 0x41 writes 0x41 twice, leaves the tape (cell and
cursor) unchanged, and advances `pc` by exactly 1. -/
theorem control_spec :
    (∀ (t : Tape) (inp outp : List Nat) (v : Nat), t.get = .ok v →
      t.control 0 inp outp =
        .ok ({ t with thetape := t.thetape.set t.position.toNat ((v + 1) % 256) }, inp, outp) ∧
      t.control 1 inp outp =
        .ok ({ t with thetape := t.thetape.set t.position.toNat ((v + 255) % 256) }, inp, outp) ∧
      t.control 6 inp outp = .ok (t, inp, outp ++ [v])) ∧
    (∀ (t : Tape) (inp outp : List Nat),
      t.control 2 inp outp = .ok (t.advance 1, inp, outp) ∧
      (t.advance 1).position = t.position + 1 ∧
      t.control 3 inp outp = .ok (t.devance 1, inp, outp) ∧
      (t.devance 1).position = t.position - 1) ∧
    (∀ (t : Tape) (outp : List Nat) (b : Nat) (rest : List Nat) (v : Nat), t.get = .ok v →
      t.control 7 (b :: rest) outp =
        .ok ({ t with thetape := t.thetape.set t.position.toNat b }, rest, outp)) ∧
    (∀ (program : List Nat) (s : MachineState),
      program[s.pc]? = some 102 → s.tape.get = .ok 65 →
      step program s = .ok { s with pc := s.pc + 1, output := s.output ++ [65, 65] }) := by
  refine ⟨fun t inp outp v hv => ⟨?_, ?_, ?_⟩, fun t inp outp => ⟨rfl, rfl, rfl, rfl⟩,
    fun t outp b rest v hv => ?_, fun program s hc hv => ?_⟩
  · simp only [Tape.control, Nat.reduceEqDiff, reduceIte]
    rw [tape_inc_ok 1 hv, except_ok_bind]
  · simp only [Tape.control, Nat.reduceEqDiff, reduceIte]
    rw [tape_dec_ok 1 hv, except_ok_bind]
  · simp only [Tape.control, Nat.reduceEqDiff, reduceIte]
    rw [hv, except_ok_bind]
  · obtain ⟨h1, h2, -⟩ := tape_get_ok hv
    simp only [Tape.control, Nat.reduceEqDiff, reduceIte]
    rw [tape_set_ok t b h1 h2, except_ok_bind]
  · have h6 : ∀ outp : List Nat, s.tape.control 6 s.input outp =
        .ok (s.tape, s.input, outp ++ [65]) := by
      intro outp
      simp only [Tape.control, Nat.reduceEqDiff, reduceIte]
      rw [hv, except_ok_bind]
    simp only [step, hc]
    rw [if_neg (by decide), if_neg (by decide)]
    have e1 : (102 : Nat) >>> 4 = 6 := by decide
    have e2 : (102 : Nat) &&& 15 = 6 := by decide
    rw [e1, e2]
    simp only [h6]
    rw [List.append_assoc]
    rfl

/-- C6 witness: the packed byte 0x66 with the current cell holding 0x41
outputs 0x41 twice, leaves cell and cursor unchanged and moves `pc`
by 1. -/
theorem control_spec_witness :
    step [102] (MachineState.mk 0 (Tape.mk [65] 0) [] []) =
      .ok (MachineState.mk 1 (Tape.mk [65] 0) [] [65, 65]) :=
  control_spec.2.2.2 [102] (MachineState.mk 0 (Tape.mk [65] 0) [] []) rfl rfl

/-- C8 witness: the header-only BF buffer with memsize 0 halts at once
with exit code 0 and an untouched state. -/
theorem halt_spec_witness :
    mainloop [255, 109, 104, 253, 0, 0, 0, 0] [] 7 =
      .finished 0 { pc := 8, tape := Tape.init 0, input := [], output := [] } :=
  (halt_spec [255, 109, 104, 253, 0, 0, 0, 0]).2.2 (by decide) (Tape.init 0) (by rfl) [] 7

end MF
